import Mathlib

/-!
# Verification of `scrape_tools.py`

A shallow embedding of the list-scraping pipeline in `scrape_tools.py`:
markdown link extraction, repository identity extraction, star enrichment
with case-insensitive deduplication, heuristic tag generation, and the
final ranking/truncation step.  External effects (the `gh` CLI, HTTP
content downloads) are modelled by an explicit environment of oracles;
every fallible call returns an `Option`.  Python strings are modelled as
Lean `String` (a list of unicode scalar characters, matching Python's
code-point view of `str`); Python's `\w`, `.lower()` and friends are
modelled at the ASCII level, which covers every input considered here.
-/

namespace ScrapeTools

/-- Python `str.lower()`: lowercase each character
(ASCII-level model of unicode lowercasing). -/
def pyLower (s : String) : String := String.mk (s.data.map Char.toLower)

/-- Python `\s` / `str.strip()` whitespace: space, tab, newline,
carriage return, vertical tab, form feed. -/
def isSpaceChar (c : Char) : Bool :=
  c = ' ' || c = '\t' || c = '\n' || c = '\r' || c = '\x0b' || c = '\x0c'

/-- Strip matching characters from both ends of a character list
(Python `str.strip`). -/
def stripWhile (p : Char → Bool) (cs : List Char) : List Char :=
  ((cs.dropWhile p).reverse.dropWhile p).reverse

/-- Strip matching characters from the right end only (Python `str.rstrip`). -/
def rstripWhile (p : Char → Bool) (cs : List Char) : List Char :=
  (cs.reverse.dropWhile p).reverse

/-! ## Data model

`Tool` is the dataclass of `scrape_tools.py`; a `Candidate` is one of the
plain dicts produced by `parse_awesome_list_content` (fields `name`,
`url`, `description`, `source_list`, `category`), before star counts are
resolved. -/

structure Candidate where
  name : String
  url : String
  description : String
  source_list : String
  category : String
deriving DecidableEq, Repr

structure Tool where
  name : String
  description : String
  url : String
  stars : Int
  category : String
  source_list : String
  tags : List String
deriving DecidableEq, Repr

/-! ## External-world model

`run_gh_api` shells out to `gh api` and parses JSON; `fetch_awesome_list`
additionally downloads the raw file with `urllib`.  We model the parsed
JSON values the code inspects, and the two effectful calls as oracles. -/

/-- A JSON leaf value as far as the code inspects it. -/
inductive JsonVal where
  | str (s : String)
  | num (n : Int)
  | other
deriving DecidableEq, Repr

/-- Result of `json.loads` on a `gh api` response: a JSON object
(`dict`), or any non-`dict` JSON value.  Python truthiness of a non-dict
value is abstracted into the `truthy` flag; the truthiness of a `dict`
is emptiness of its entry list. -/
inductive GhData where
  | dict (entries : List (String × JsonVal))
  | nondict (truthy : Bool)
deriving DecidableEq, Repr

/-- First-match field lookup in a JSON object
(Python `field in data` / `data[field]` / `data.get`). -/
def lookupField (entries : List (String × JsonVal)) (field : String) : Option JsonVal :=
  match entries with
  | [] => none
  | (k, v) :: rest => if k = field then some v else lookupField rest field

/-- The external world: `ghApi endpoint` is the parsed result of
`gh api endpoint` (`none` models a `CalledProcessError` or a
`JSONDecodeError`); `rawContent url` is the UTF-8 decoded body fetched
from `url` (`none` models any exception in `urlopen`/`read`/`decode`). -/
structure GhEnv where
  ghApi : String → Option GhData
  rawContent : String → Option String

/-- `run_gh_api`: run a GitHub API call; `None` on subprocess or JSON
decode failure (both folded into the oracle). -/
def run_gh_api (env : GhEnv) (endpoint : String) : Option GhData :=
  env.ghApi endpoint

/-- `get_repo_stars`: star count of `owner/repo`; `0` whenever the API
call fails, the response is falsy or not a dict, or the
`stargazers_count` field is absent.  (A present but non-numeric field is
also modelled as `0`; Python would return the raw value there, which no
claim exercises.) -/
def get_repo_stars (env : GhEnv) (owner repo : String) : Int :=
  match run_gh_api env ("/repos/" ++ owner ++ "/" ++ repo) with
  | some (GhData.dict entries) =>
    if entries.isEmpty then 0
    else
      match lookupField entries "stargazers_count" with
      | some (JsonVal.num n) => n
      | some _ => 0
      | none => 0
  | _ => 0

/-! ## `extract_github_repo`

The Python function tries two regex patterns in order with `re.search`:

  1. `github\.com/([^/]+)/([^/\s\)#]+)`
  2. `github\.com/([^/]+)/([^/\s\)#]+)\.git`

Both start with the literal `github.com/`; `re.search` tries every start
position left to right.  Within a match, `([^/]+)` runs greedily to the
next `/` (no backtracking is possible: a shorter owner cannot be
followed by a literal `/`), and `([^/\s\)#]+)` runs greedily to the next
stop character.  In pattern 2 the trailing `\.git` backtracks the repo
group to the longest prefix of that run that is immediately followed by
`.git`. -/

/-- The literal `github.com/` that both patterns start with. -/
def githubMarker : List Char := "github.com/".data

/-- Stop characters of the repo character class `[^/\s\)#]`. -/
def repoStopChar (c : Char) : Bool :=
  c = '/' || isSpaceChar c || c = ')' || c = '#'

/-- Attempt pattern 1 at the current position: literal `github.com/`,
a nonempty run of non-`/` characters (the owner), a `/`, then a nonempty
run of non-stop characters (the repo). -/
def matchPattern1 (cs : List Char) : Option (List Char × List Char) :=
  if githubMarker.isPrefixOf cs then
    let rest := cs.drop githubMarker.length
    let owner := rest.takeWhile (fun c => c ≠ '/')
    if owner.isEmpty then none
    else
      match rest.dropWhile (fun c => c ≠ '/') with
      | '/' :: rest2 =>
        let repo := rest2.takeWhile (fun c => !repoStopChar c)
        if repo.isEmpty then none else some (owner, repo)
      | _ => none
  else none

/-- `re.search` with pattern 1: try every start position left to right. -/
def searchPattern1 : List Char → Option (List Char × List Char)
  | [] => none
  | c :: rest =>
    match matchPattern1 (c :: rest) with
    | some r => some r
    | none => searchPattern1 rest

/-- Greedy backtracking of `([^/\s\)#]+)\.git`: the longest nonempty
prefix of `run` that is immediately followed by `.git` inside `run`
(the characters of `.git` are themselves non-stop characters, so they
must lie inside the greedy run). -/
def findGitSplit (run : List Char) : Option (List Char) :=
  (List.range run.length).reverse.findSome? fun k =>
    if 1 ≤ k && ".git".data.isPrefixOf (run.drop k) then some (run.take k)
    else none

/-- Attempt pattern 2 at the current position (pattern 1 plus a
trailing `\.git`). -/
def matchPattern2 (cs : List Char) : Option (List Char × List Char) :=
  if githubMarker.isPrefixOf cs then
    let rest := cs.drop githubMarker.length
    let owner := rest.takeWhile (fun c => c ≠ '/')
    if owner.isEmpty then none
    else
      match rest.dropWhile (fun c => c ≠ '/') with
      | '/' :: rest2 =>
        let run := rest2.takeWhile (fun c => !repoStopChar c)
        match findGitSplit run with
        | some repo => some (owner, repo)
        | none => none
      | _ => none
  else none

/-- `re.search` with pattern 2. -/
def searchPattern2 : List Char → Option (List Char × List Char)
  | [] => none
  | c :: rest =>
    match matchPattern2 (c :: rest) with
    | some r => some r
    | none => searchPattern2 rest

/-- Python `\w` (ASCII view) together with `-` and `.`: the characters
kept by `re.sub(r"[^\w\-\.]", "", repo)`. -/
def isWordChar (c : Char) : Bool :=
  c.isAlphanum || c = '_' || c = '-' || c = '.'

/-- The post-processing applied to a matched group pair:
`rstrip("/")`, `rstrip(")")`, then delete all non-`[\w\-.]` characters. -/
def cleanRepoGroups (owner repo : List Char) : String × String :=
  let r1 := rstripWhile (fun c => c = '/') repo
  let r2 := rstripWhile (fun c => c = ')') r1
  let r3 := r2.filter isWordChar
  (String.mk owner, String.mk r3)

/-- `extract_github_repo`: try the two patterns in order; on the first
match, clean up the repo group and return `(owner, repo)`. -/
def extract_github_repo (url : String) : Option (String × String) :=
  match searchPattern1 url.data with
  | some (owner, repo) => some (cleanRepoGroups owner repo)
  | none =>
    match searchPattern2 url.data with
    | some (owner, repo) => some (cleanRepoGroups owner repo)
    | none => none

/-! ## `generate_tags` -/

/-- The keyword table of `generate_tags`, in Python dict insertion
order (ordered iteration is guaranteed for `dict` since Python 3.7). -/
def keywordTable : List (String × List String) :=
  [ ("cli", ["cli", "command-line", "terminal", "command line"]),
    ("mcp", ["mcp", "model context protocol"]),
    ("ai", ["ai", "llm", "gpt", "claude", "machine learning", "artificial intelligence"]),
    ("git", ["git", "github", "version control"]),
    ("mac", ["mac", "macos", "osx"]),
    ("productivity", ["productivity", "workflow", "automation"]),
    ("documentation", ["documentation", "docs", "readme"]),
    ("api", ["api", "rest", "http", "request"]),
    ("json", ["json", "yaml", "data"]),
    ("search", ["search", "find", "grep"]),
    ("editor", ["editor", "ide", "vim", "code"]),
    ("testing", ["test", "testing", "qa"]),
    ("deployment", ["deploy", "deployment", "ci", "cd"]),
    ("docker", ["docker", "container", "kubernetes"]),
    ("database", ["database", "sql", "postgres", "mysql"]) ]

/-- Does `pat` occur as a contiguous run inside `hay`? -/
def listContains (pat : List Char) : List Char → Bool
  | [] => pat.isEmpty
  | c :: rest => pat.isPrefixOf (c :: rest) || listContains pat rest

/-- Python `pattern in desc_lower`: substring test. -/
def strContains (hay pat : String) : Bool :=
  listContains pat.data hay.data

/-- One iteration of the `generate_tags` loop: append the row's tag if
any of its patterns occurs in the lowercased description and the tag is
not already present. -/
def tagStep (desc_lower : String) (tags : List String)
    (kv : String × List String) : List String :=
  if kv.2.any (fun p => strContains desc_lower p) then
    if kv.1 ∈ tags then tags else tags ++ [kv.1]
  else tags

/-- `generate_tags`: start from `[category]`; for each table row in
order, append the tag once if any of its patterns occurs in the
lowercased description; finally truncate to 6 tags. -/
def generate_tags (description category : String) : List String :=
  let desc_lower := pyLower description
  (keywordTable.foldl (tagStep desc_lower) [category]).take 6

/-! ## `parse_awesome_list_content`

The extraction regex, run with `re.findall(..., re.MULTILINE)`:

  `[-*]\s*\[([^\]]+)\]\(([^)]+)\)\s*[-–—:]?\s*(.+?)(?=\n|$)`

`re.findall` scans every start position left to right and resumes after
each match (non-overlapping).  Within a match: `\s*` runs greedily (no
backtracking is possible before a literal, since the literals `[`, `(`
are not whitespace); `([^\]]+)` runs to the first `]` and `([^)]+)` to
the first `)`, both nonempty; the description `(.+?)` is lazy with a
`(?=\n|$)` lookahead, so it is exactly the remainder of the line from
its start position and must be nonempty (`.` does not match a newline).
The start of the description is found greedily: maximal `\s*` (which may
cross newlines), then the optional separator if present, then maximal
`\s*` again.  If that leaves at least one character the first try
succeeds and is the engine's answer.  Otherwise the whole tail is
whitespace plus at most one separator running to the end of the string,
and the backtracking order makes the engine place the one-character
description at the last non-newline character of the tail (if any); the
remaining suffix is then all newlines.  Both branches are implemented
below and were checked against CPython's `re` on the boundary cases. -/

/-- The optional separator class `[-–—:]`. -/
def sepChar (c : Char) : Bool :=
  c = '-' || c = '–' || c = '—' || c = ':'

/-- One raw regex match: the three captured groups (name, url,
description), all as character lists. -/
structure RawMatch where
  name : List Char
  url : List Char
  desc : List Char
deriving DecidableEq, Repr

/-- Attempt the link regex at the current position; on success return
the captured groups and the rest of the input after the match. -/
def matchLinkAt (cs : List Char) : Option (RawMatch × List Char) :=
  match cs with
  | [] => none
  | c :: rest =>
    if c = '-' || c = '*' then
      match rest.dropWhile isSpaceChar with
      | '[' :: r2 =>
        let name := r2.takeWhile (fun ch => ch ≠ ']')
        if name.isEmpty then none
        else
          match r2.dropWhile (fun ch => ch ≠ ']') with
          | ']' :: '(' :: r4 =>
            let url := r4.takeWhile (fun ch => ch ≠ ')')
            if url.isEmpty then none
            else
              match r4.dropWhile (fun ch => ch ≠ ')') with
              | ')' :: tail =>
                -- `\s*[-–—:]?\s*(.+?)(?=\n|$)`, greedy first try
                let r6 := tail.dropWhile isSpaceChar
                let r7 := match r6 with
                  | s :: r6' => if sepChar s then r6'.dropWhile isSpaceChar else r6
                  | [] => r6
                match r7 with
                | d :: _ =>
                  let desc := (d :: r7.tail).takeWhile (fun ch => ch ≠ '\n')
                  some (⟨name, url, desc⟩, r7.drop desc.length)
                | [] =>
                  -- backtracking branch: the tail is whitespace plus at
                  -- most one separator, all the way to the end; the
                  -- engine matches the last non-newline character
                  match tail.reverse.dropWhile (fun ch => ch = '\n') with
                  | q :: _ =>
                    some (⟨name, url, [q]⟩,
                      (tail.reverse.takeWhile (fun ch => ch = '\n')).reverse)
                  | [] => none
              | _ => none
          | _ => none
      | _ => none
    else none

/-- `re.findall`: scan left to right, resuming after each match.  A
successful match always consumes at least one character, so fuel equal
to the input length suffices. -/
def findLinksAux : Nat → List Char → List RawMatch
  | 0, _ => []
  | _, [] => []
  | fuel + 1, c :: rest =>
    match matchLinkAt (c :: rest) with
    | some (m, after) => m :: findLinksAux fuel after
    | none => findLinksAux fuel rest

/-- All matches of the link regex in `cs`. -/
def findLinks (cs : List Char) : List RawMatch :=
  findLinksAux cs.length cs

/-! Badge and image removal.  The two substitution regexes are

  `\s*\[!\[.*?\]\(.*?\)\]\(.*?\)`   (badges)  and  `!\[.*?\]\(.*?\)`   (images).

For each lazy group the engine stops at the first position where the
following literals match; a failure further right cannot be repaired by
expanding an earlier lazy group (any later stop position only shrinks
the search region of the following group), so the first-try scan below
is exact. -/

/-- Scan for the first `](` pair reachable through non-newline
characters; return the rest after it. -/
def findBrParen : List Char → Option (List Char)
  | ']' :: '(' :: rest => some rest
  | '\n' :: _ => none
  | _ :: rest => findBrParen rest
  | [] => none

/-- Scan for the first `)](` triple reachable through non-newline
characters; return the rest after it. -/
def findParenBrParen : List Char → Option (List Char)
  | ')' :: ']' :: '(' :: rest => some rest
  | '\n' :: _ => none
  | _ :: rest => findParenBrParen rest
  | [] => none

/-- Lazy `.*?\)`: consume up to and including the first `)` (not
crossing a newline); return the rest. -/
def lazyToParen (cs : List Char) : Option (List Char) :=
  match cs.dropWhile (fun ch => ch ≠ ')' && ch ≠ '\n') with
  | ')' :: rest => some rest
  | _ => none

/-- Attempt the badge regex `\s*\[!\[.*?\]\(.*?\)\]\(.*?\)` at the
current position; on success return the rest after the match. -/
def matchBadgeAt (cs : List Char) : Option (List Char) :=
  match cs.dropWhile isSpaceChar with
  | '[' :: '!' :: '[' :: r1 =>
    match findBrParen r1 with
    | some r2 =>
      match findParenBrParen r2 with
      | some r3 => lazyToParen r3
      | none => none
    | none => none
  | _ => none

/-- Attempt the image regex `!\[.*?\]\(.*?\)` at the current position. -/
def matchImageAt (cs : List Char) : Option (List Char) :=
  match cs with
  | '!' :: '[' :: r1 =>
    match findBrParen r1 with
    | some r2 => lazyToParen r2
    | none => none
  | _ => none

/-- `re.sub(pat, "", s)`: delete every non-overlapping match, scanning
left to right.  Fuel equal to the input length suffices since a match
consumes at least one character. -/
def subAllAux (matchAt : List Char → Option (List Char)) :
    Nat → List Char → List Char
  | 0, cs => cs
  | _, [] => []
  | fuel + 1, c :: rest =>
    match matchAt (c :: rest) with
    | some after => subAllAux matchAt fuel after
    | none => c :: subAllAux matchAt fuel rest

/-- Delete every badge match. -/
def subBadges (cs : List Char) : List Char :=
  subAllAux matchBadgeAt cs.length cs

/-- Delete every image match. -/
def subImages (cs : List Char) : List Char :=
  subAllAux matchImageAt cs.length cs

/-- The punctuation class of `description.strip(" .-–—")`. -/
def stripPunctChar (c : Char) : Bool :=
  c = ' ' || c = '.' || c = '-' || c = '–' || c = '—'

/-- The description clean-up of `parse_awesome_list_content`:
`strip()`, badge removal, image removal, `strip(" .-–—")`. -/
def cleanDescription (desc : List Char) : List Char :=
  stripWhile stripPunctChar (subImages (subBadges (stripWhile isSpaceChar desc)))

/-- Turn one raw regex match into a candidate: skip non-GitHub links,
clean the description, skip descriptions shorter than 10 characters,
truncate to 300. -/
def processMatch (source_list category : String) (m : RawMatch) : Option Candidate :=
  if listContains "github.com".data (m.url.map Char.toLower) then
    let description := cleanDescription m.desc
    if description.length < 10 then none
    else some
      { name := String.mk (stripWhile isSpaceChar m.name),
        url := String.mk (stripWhile isSpaceChar m.url),
        description := String.mk (description.take 300),
        source_list := source_list,
        category := category }
  else none

/-- `parse_awesome_list_content`: extract all candidates from markdown
content. -/
def parse_awesome_list_content (content source_list category : String) :
    List Candidate :=
  (findLinks content.data).filterMap (processMatch source_list category)

/-! ## `fetch_awesome_list` -/

/-- The `gh api` endpoint used to resolve a file's download location. -/
def contentsEndpoint (owner repo path : String) : String :=
  "/repos/" ++ owner ++ "/" ++ repo ++ "/contents/" ++ path

/-- `fetch_awesome_list`: resolve the download location of
`owner/repo/path`, then fetch and decode the raw content.  Returns
`none` if the API call fails, the response is falsy or not a dict, the
`download_url` field is absent (or not a string, in which case `urlopen`
raises and the handler returns `None`), or the content fetch/decode
fails. -/
def fetch_awesome_list (env : GhEnv) (owner repo : String)
    (path : String := "README.md") : Option String :=
  match run_gh_api env (contentsEndpoint owner repo path) with
  | some (GhData.dict entries) =>
    if entries.isEmpty then none
    else
      match lookupField entries "download_url" with
      | some (JsonVal.str u) => env.rawContent u
      | some _ => none
      | none => none
  | _ => none

/-! ## `enrich_with_stars`

The Python loop keeps a `seen_repos` set of lowercased `owner/repo`
keys.  For each candidate: skip if the URL does not resolve; skip if
the key was already seen; otherwise record the key, look up the star
count, and construct a `Tool` only if it meets the threshold.  (The
`i % 10` progress log and `time.sleep(1)` have no effect on the result
and are not modelled.)  The seen set is modelled as a list of keys with
membership lookup. -/

/-- The case-insensitive dedup key `f"{owner}/{repo}".lower()`. -/
def lowerKey (owner repo : String) : String :=
  pyLower (owner ++ "/" ++ repo)

/-- The canonical URL `f"https://github.com/{owner}/{repo}"`. -/
def canonicalUrl (owner repo : String) : String :=
  "https://github.com/" ++ owner ++ "/" ++ repo

/-- The `Tool(...)` constructed from a surviving candidate. -/
def toolOf (c : Candidate) (owner repo : String) (stars : Int) : Tool :=
  { name := c.name,
    description := c.description,
    url := canonicalUrl owner repo,
    stars := stars,
    category := c.category,
    source_list := c.source_list,
    tags := generate_tags c.description c.category }

/-- The enrichment loop with its `seen_repos` state made explicit. -/
def enrichAux (env : GhEnv) (min_stars : Int) :
    List Candidate → List String → List Tool
  | [], _ => []
  | c :: rest, seen =>
    match extract_github_repo c.url with
    | none => enrichAux env min_stars rest seen
    | some (owner, repo) =>
      let key := lowerKey owner repo
      if key ∈ seen then enrichAux env min_stars rest seen
      else
        let stars := get_repo_stars env owner repo
        if min_stars ≤ stars then
          toolOf c owner repo stars :: enrichAux env min_stars rest (key :: seen)
        else
          enrichAux env min_stars rest (key :: seen)

/-- `enrich_with_stars` (default threshold 500). -/
def enrich_with_stars (env : GhEnv) (tools : List Candidate)
    (min_stars : Int := 500) : List Tool :=
  enrichAux env min_stars tools []

/-! ## The three scrapers and `main` -/

/-- `scrape_awesome_mcp_servers`.  Python's `if content:` treats the
empty string as falsy. -/
def scrape_awesome_mcp_servers (env : GhEnv) : List Candidate :=
  match fetch_awesome_list env "punkpeye" "awesome-mcp-servers" with
  | some content =>
    if content = "" then []
    else parse_awesome_list_content content "awesome-mcp-servers" "mcp-server"
  | none => []

/-- `scrape_awesome_cli_apps`. -/
def scrape_awesome_cli_apps (env : GhEnv) : List Candidate :=
  match fetch_awesome_list env "agarrharr" "awesome-cli-apps" with
  | some content =>
    if content = "" then []
    else parse_awesome_list_content content "awesome-cli-apps" "cli-tool"
  | none => []

/-- `scrape_awesome_mac`. -/
def scrape_awesome_mac (env : GhEnv) : List Candidate :=
  match fetch_awesome_list env "jaywcjlove" "awesome-mac" with
  | some content =>
    if content = "" then []
    else parse_awesome_list_content content "awesome-mac" "mac-app"
  | none => []

/-- The comparison used by `enriched_tools.sort(key=lambda t: t.stars,
reverse=True)`: `a` may come before `b` when `a` has at least as many
stars.  Python's `list.sort` is a stable sort, also under
`reverse=True`; `List.mergeSort` is the stable sort on the Lean side. -/
def starsDescLe (a b : Tool) : Bool :=
  b.stars ≤ a.stars

/-- The shared ranking step: stable-sort by star count descending, then
keep the first 100 entries. -/
def rankTruncate (tools : List Tool) : List Tool :=
  (tools.mergeSort starsDescLe).take 100

/-- The output metadata block. -/
structure Metadata where
  version : String
  tool_count : Nat
  min_stars : Int
  sources : List String
deriving DecidableEq, Repr

/-- The JSON document written to `tool-database.json`. -/
structure OutputDoc where
  metadata : Metadata
  tools : List Tool
deriving DecidableEq, Repr

/-- The fixed source list recorded in the metadata. -/
def sourcesMeta : List String :=
  ["punkpeye/awesome-mcp-servers",
   "agarrharr/awesome-cli-apps",
   "jaywcjlove/awesome-mac"]

/-- `main`: scrape the three lists, enrich with a 500-star threshold,
sort by stars descending, truncate to 100, and assemble the output
document.  The document is always produced (and in the Python code
always written to disk), whatever the environment returns. -/
def main (env : GhEnv) : OutputDoc :=
  let all_tools := scrape_awesome_mcp_servers env ++
    scrape_awesome_cli_apps env ++ scrape_awesome_mac env
  let enriched_tools := enrich_with_stars env all_tools 500
  let final := rankTruncate enriched_tools
  { metadata :=
      { version := "1.0",
        tool_count := final.length,
        min_stars := 500,
        sources := sourcesMeta },
    tools := final }

/-- The `seen_repos` set as it stands after processing a list of
candidates (mirrors the state updates of `enrichAux`). -/
def seenAfter : List Candidate → List String → List String
  | [], seen => seen
  | c :: rest, seen =>
    match extract_github_repo c.url with
    | none => seenAfter rest seen
    | some (owner, repo) =>
      let key := lowerKey owner repo
      if key ∈ seen then seenAfter rest seen
      else seenAfter rest (key :: seen)

/-! ## Concrete fixtures used by the witness theorems -/

/-- An environment in which every external call fails. -/
def envAllFail : GhEnv :=
  { ghApi := fun _ => none, rawContent := fun _ => none }

/-- An environment that reports 1000 stars for `abc/def` and fails
every other call. -/
def envStars1000 : GhEnv :=
  { ghApi := fun endpoint =>
      if endpoint = "/repos/abc/def" then
        some (GhData.dict [("stargazers_count", JsonVal.num 1000)])
      else none,
    rawContent := fun _ => none }

/-- A concrete candidate pointing at `abc/def`. -/
def candAbc : Candidate :=
  { name := "Abc", url := "https://github.com/abc/def",
    description := "a sufficiently long description",
    source_list := "src", category := "cat" }

/-- The same repository in different letter case. -/
def candAbcUpper : Candidate :=
  { name := "Abc2", url := "https://github.com/ABC/DEF",
    description := "another sufficiently long description",
    source_list := "src", category := "cat" }

/-- The output document produced when no tool survives: empty tools
array, zero tool count. -/
def emptyOutput : OutputDoc :=
  { metadata :=
      { version := "1.0", tool_count := 0, min_stars := 500,
        sources := sourcesMeta },
    tools := [] }

/-- Two concrete tools with equal star counts. -/
def toolA : Tool :=
  { name := "A", description := "da", url := "https://github.com/a/a",
    stars := 500, category := "c", source_list := "s", tags := [] }

def toolB : Tool :=
  { name := "B", description := "db", url := "https://github.com/b/b",
    stars := 500, category := "c", source_list := "s", tags := [] }

/-! # Theorems -/

/-! ## Tag generation lemmas -/

/-- The tag fold keeps the head of its accumulator. -/
theorem tagsFoldl_head (dl : String) :
    ∀ (table : List (String × List String)) (c : String) (t : List String),
      ∃ t2, table.foldl (tagStep dl) (c :: t) = c :: t2
  | [], _, t => ⟨t, rfl⟩
  | kv :: table, c, t => by
    simp only [List.foldl_cons, tagStep]
    split
    · split
      · exact tagsFoldl_head dl table c t
      · rw [List.cons_append]
        exact tagsFoldl_head dl table c (t ++ [kv.1])
    · exact tagsFoldl_head dl table c t

/-- The tag fold grows the accumulator by at most one entry per table
row whose condition holds. -/
theorem tagsFoldl_length (dl : String) :
    ∀ (table : List (String × List String)) (acc : List String),
      (table.foldl (tagStep dl) acc).length ≤
        acc.length + table.countP (fun kv => kv.2.any fun p => strContains dl p)
  | [], acc => by simp
  | kv :: table, acc => by
    simp only [List.foldl_cons, List.countP_cons, tagStep]
    split
    · have h1 := tagsFoldl_length dl table (if kv.1 ∈ acc then acc else acc ++ [kv.1])
      have hstep : (if kv.1 ∈ acc then acc else acc ++ [kv.1]).length ≤ acc.length + 1 := by
        split <;> simp
      omega
    · have h1 := tagsFoldl_length dl table acc
      omega

/-- Accumulator membership is preserved by the tag fold. -/
theorem tagsFoldl_mem_mono (dl : String) :
    ∀ (table : List (String × List String)) (acc : List String) (a : String),
      a ∈ acc → a ∈ table.foldl (tagStep dl) acc
  | [], _, _, h => h
  | kv :: table, acc, a, h => by
    simp only [List.foldl_cons, tagStep]
    split
    · split
      · exact tagsFoldl_mem_mono dl table acc a h
      · exact tagsFoldl_mem_mono dl table _ a (List.mem_append_left _ h)
    · exact tagsFoldl_mem_mono dl table acc a h

/-- A table row whose condition holds contributes its tag to the fold
result. -/
theorem tagsFoldl_mem_of_cond (dl : String) :
    ∀ (table : List (String × List String)) (acc : List String)
      (tag : String) (pats : List String), (tag, pats) ∈ table →
      (pats.any fun p => strContains dl p) = true →
      tag ∈ table.foldl (tagStep dl) acc
  | kv :: table, acc, tag, pats, hmem, hcond => by
    rcases List.mem_cons.mp hmem with heq | htail
    · cases heq
      simp only [List.foldl_cons, tagStep, hcond, if_true]
      by_cases hin : tag ∈ acc
      · rw [if_pos hin]
        exact tagsFoldl_mem_mono dl table acc tag hin
      · rw [if_neg hin]
        exact tagsFoldl_mem_mono dl table _ tag (List.mem_append_right _ (by simp))
    · simp only [List.foldl_cons, tagStep]
      split
      · split
        · exact tagsFoldl_mem_of_cond dl table acc tag pats htail hcond
        · exact tagsFoldl_mem_of_cond dl table _ tag pats htail hcond
      · exact tagsFoldl_mem_of_cond dl table acc tag pats htail hcond

/-! ## Claim theorems C4, C5, C7 -/

/-- Claim C4: the spec says identity extraction on
`https://github.com/owner/repo.git)` yields `("owner", "repo")`,
tolerating the `.git` suffix.  The code does strip the trailing `)`
(the repo character class excludes it), but the first regex pattern
greedily keeps `.git` in the repo group, so the `.git`-stripping second
pattern is dead code and the result is `("owner", "repo.git")`.
This theorem records what the code actually returns at the claimed
input. -/
theorem C4_extract_keeps_git_suffix :
    extract_github_repo "https://github.com/owner/repo.git)" =
      some ("owner", "repo.git") := by decide

/-- Claim C5: for every description and category, the tag generator of
the list pipeline returns at most 6 tags, and the category is among
them. -/
theorem C5_tag_bound_and_category (description category : String) :
    (generate_tags description category).length ≤ 6 ∧
    category ∈ generate_tags description category := by
  obtain ⟨t2, h⟩ := tagsFoldl_head (pyLower description) keywordTable category []
  constructor
  · exact List.length_take_le _ _
  · show category ∈ (keywordTable.foldl (tagStep (pyLower description)) [category]).take 6
    rw [show ([category] : List String) = category :: [] from rfl, h,
      List.take_succ_cons]
    exact List.mem_cons_self _ _

/-- Claim C7: on the description `"A fast CLI tool for git automation"`
(any category), the generated tags include `"cli"`, `"git"` and
`"productivity"`. -/
theorem C7_multi_keyword_tags (category : String) :
    "cli" ∈ generate_tags "A fast CLI tool for git automation" category ∧
    "git" ∈ generate_tags "A fast CLI tool for git automation" category ∧
    "productivity" ∈ generate_tags "A fast CLI tool for git automation" category := by
  have hlen : (keywordTable.foldl
      (tagStep (pyLower "A fast CLI tool for git automation")) [category]).length ≤ 4 := by
    have := tagsFoldl_length (pyLower "A fast CLI tool for git automation")
      keywordTable [category]
    have hcount : keywordTable.countP
        (fun kv => kv.2.any fun p =>
          strContains (pyLower "A fast CLI tool for git automation") p) = 3 := by decide
    simp only [hcount, List.length_cons, List.length_nil] at this
    omega
  have htake : generate_tags "A fast CLI tool for git automation" category =
      keywordTable.foldl (tagStep (pyLower "A fast CLI tool for git automation"))
        [category] :=
    List.take_of_length_le (by omega)
  rw [htake]
  refine ⟨?_, ?_, ?_⟩
  · exact tagsFoldl_mem_of_cond _ keywordTable _ "cli"
      ["cli", "command-line", "terminal", "command line"] (by decide) (by decide)
  · exact tagsFoldl_mem_of_cond _ keywordTable _ "git"
      ["git", "github", "version control"] (by decide) (by decide)
  · exact tagsFoldl_mem_of_cond _ keywordTable _ "productivity"
      ["productivity", "workflow", "automation"] (by decide) (by decide)

/-! ## Claim theorems C6, C9 -/

/-- Claim C6: every candidate emitted by the markdown link extractor
has a description of at least 10 characters (shorter entries are
discarded) and at most 300 characters (longer descriptions are
truncated). -/
theorem C6_description_bounds (content source_list category : String)
    (c : Candidate)
    (h : c ∈ parse_awesome_list_content content source_list category) :
    10 ≤ c.description.length ∧ c.description.length ≤ 300 := by
  simp only [parse_awesome_list_content, List.mem_filterMap] at h
  obtain ⟨m, -, hm⟩ := h
  simp only [processMatch] at hm
  split at hm
  · split at hm
    · exact absurd hm (by simp)
    · rename_i hlen
      obtain rfl : _ = c := Option.some.inj hm
      show 10 ≤ (String.mk ((cleanDescription m.desc).take 300)).length ∧
        (String.mk ((cleanDescription m.desc).take 300)).length ≤ 300
      show 10 ≤ ((cleanDescription m.desc).take 300).length ∧
        ((cleanDescription m.desc).take 300).length ≤ 300
      rw [List.length_take]
      omega
  · exact absurd hm (by simp)

/-- Closed witness for C6 at a concrete one-candidate input. -/
theorem C6_description_bounds_witness :
    10 ≤ (Candidate.mk "MyTool" "https://github.com/a/b"
        "a sufficiently long description" "src" "cat").description.length ∧
    (Candidate.mk "MyTool" "https://github.com/a/b"
        "a sufficiently long description" "src" "cat").description.length ≤ 300 :=
  C6_description_bounds
    "intro text - [MyTool](https://github.com/a/b) - a sufficiently long description"
    "src" "cat" _ (by decide)

/-- Claim C9 counterexample: the extraction regex has no `^` anchor, so
a `- [name](url) description` pattern occurring only in the middle of a
line still yields a candidate, refuting the claim that a mid-line
pattern yields no candidate. -/
theorem C9_counterexample_midline_match :
    parse_awesome_list_content
      "intro text - [MyTool](https://github.com/a/b) - a sufficiently long description"
      "src" "cat" =
    [{ name := "MyTool", url := "https://github.com/a/b",
       description := "a sufficiently long description",
       source_list := "src", category := "cat" }] := by decide

/-- Claim C9 as amended: the extractor matches the bullet pattern at
any position, not only at line starts; both a mid-line occurrence and a
line-start occurrence produce a candidate, in text order. -/
theorem C9_amended_unanchored_matching :
    parse_awesome_list_content
      "intro - [A](https://github.com/a/b) - first long description\n- [C](https://github.com/c/d) - second long description"
      "src" "cat" =
    [{ name := "A", url := "https://github.com/a/b",
       description := "first long description",
       source_list := "src", category := "cat" },
     { name := "C", url := "https://github.com/c/d",
       description := "second long description",
       source_list := "src", category := "cat" }] := by decide

/-! ## Ranking lemmas and claim theorem C1 -/

/-- The descending star comparison is transitive. -/
theorem starsDescLe_trans (a b c : Tool) :
    starsDescLe a b = true → starsDescLe b c = true → starsDescLe a c = true := by
  simp only [starsDescLe, decide_eq_true_eq]
  omega

/-- The descending star comparison is total. -/
theorem starsDescLe_total (a b : Tool) :
    (starsDescLe a b || starsDescLe b a) = true := by
  simp only [starsDescLe, Bool.or_eq_true, decide_eq_true_eq]
  omega

/-- Claim C1: the final collection is a stable sort by star count
descending followed by truncation to 100 entries: the result has at
most 100 elements, star counts are non-increasing along it, and tools
with any fixed star count appear in exactly their input order (the
filter by one star value is unchanged by the sort). -/
theorem C1_rank_truncate (tools : List Tool) :
    (rankTruncate tools).length ≤ 100 ∧
    (∀ i j (hi : i < (rankTruncate tools).length)
        (hj : j < (rankTruncate tools).length), i < j →
      ((rankTruncate tools).get ⟨j, hj⟩).stars ≤
        ((rankTruncate tools).get ⟨i, hi⟩).stars) ∧
    (∀ s : Int, (tools.mergeSort starsDescLe).filter (fun t => t.stars == s) =
      tools.filter (fun t => t.stars == s)) := by
  refine ⟨List.length_take_le _ _, ?_, ?_⟩
  · have hsorted : (tools.mergeSort starsDescLe).Pairwise
        (fun a b => starsDescLe a b = true) :=
      List.sorted_mergeSort starsDescLe_trans starsDescLe_total tools
    have htake : (rankTruncate tools).Pairwise (fun a b => starsDescLe a b = true) :=
      List.Pairwise.sublist (List.take_sublist _ _) hsorted
    intro i j hi hj hij
    have := List.pairwise_iff_get.mp htake ⟨i, hi⟩ ⟨j, hj⟩ hij
    simpa only [starsDescLe, decide_eq_true_eq] using this
  · intro s
    set p : Tool → Bool := fun t => t.stars == s with hp
    have hmem : ∀ a ∈ tools.filter p, a.stars = s := by
      intro a ha
      have := (List.mem_filter.mp ha).2
      simpa [hp] using this
    have hpair : (tools.filter p).Pairwise (fun a b => starsDescLe a b = true) := by
      refine List.pairwise_of_forall_mem_list ?_
      intro a ha b hb
      simp only [starsDescLe, decide_eq_true_eq, hmem a ha, hmem b hb]
      omega
    have hsub : (tools.filter p).Sublist (tools.mergeSort starsDescLe) :=
      List.sublist_mergeSort starsDescLe_trans starsDescLe_total hpair
        (List.filter_sublist tools)
    have hsub2 : (tools.filter p).Sublist ((tools.mergeSort starsDescLe).filter p) := by
      have := List.Sublist.filter p hsub
      rwa [List.filter_filter, show (fun a => p a && p a) = p from by
        funext a; cases p a <;> rfl] at this
    have hperm : ((tools.mergeSort starsDescLe).filter p).Perm (tools.filter p) :=
      List.Perm.filter p (List.mergeSort_perm tools starsDescLe)
    exact (List.Sublist.eq_of_length hsub2 hperm.length_eq.symm).symm

/-- Closed witness for C1 on a concrete two-element list with tied star
counts. -/
theorem C1_rank_truncate_witness :
    ((rankTruncate [toolA, toolB]).get ⟨1, by
        simp [rankTruncate, List.length_take, List.length_mergeSort]⟩).stars ≤
      ((rankTruncate [toolA, toolB]).get ⟨0, by
        simp [rankTruncate, List.length_take, List.length_mergeSort]⟩).stars :=
  (C1_rank_truncate [toolA, toolB]).2.1 0 1
    (by simp [rankTruncate, List.length_take, List.length_mergeSort])
    (by simp [rankTruncate, List.length_take, List.length_mergeSort])
    (by omega)

/-! ## Enrichment lemmas -/

/-- `pyLower` distributes over string append. -/
theorem pyLower_append (a b : String) :
    pyLower (a ++ b) = pyLower a ++ pyLower b := by
  apply String.ext
  simp [pyLower, String.data_append]

/-- Appending on the left is injective for strings. -/
theorem string_append_left_cancel {p x y : String} (h : p ++ x = p ++ y) : x = y := by
  apply String.ext
  have := congrArg String.data h
  simp only [String.data_append] at this
  exact List.append_cancel_left this

/-- The lowercased canonical URL is the fixed prefix followed by the
dedup key. -/
theorem pyLower_canonicalUrl (o r : String) :
    pyLower (canonicalUrl o r) = "https://github.com/" ++ lowerKey o r := by
  simp only [canonicalUrl, lowerKey, pyLower_append, String.append_assoc]
  rfl

/-- Distinct dedup keys give distinct lowercased canonical URLs. -/
theorem canonicalUrl_lower_ne {o r o' r' : String}
    (h : lowerKey o r ≠ lowerKey o' r') :
    pyLower (canonicalUrl o r) ≠ pyLower (canonicalUrl o' r') := by
  intro heq
  rw [pyLower_canonicalUrl, pyLower_canonicalUrl] at heq
  exact h (string_append_left_cancel heq)

/-- Enrichment splits over list append, threading the seen set. -/
theorem enrichAux_append (env : GhEnv) (m : Int) :
    ∀ (xs ys : List Candidate) (seen : List String),
      enrichAux env m (xs ++ ys) seen =
        enrichAux env m xs seen ++ enrichAux env m ys (seenAfter xs seen)
  | [], ys, seen => rfl
  | c :: xs, ys, seen => by
    simp only [List.cons_append, enrichAux, seenAfter, List.append_eq]
    match extract_github_repo c.url with
    | none => exact enrichAux_append env m xs ys seen
    | some (o, r) =>
      by_cases hmem : lowerKey o r ∈ seen
      · simp only [hmem, if_true]
        exact enrichAux_append env m xs ys seen
      · simp only [hmem, if_false]
        by_cases hstar : m ≤ get_repo_stars env o r
        · simp only [hstar, if_true, List.cons_append]
          rw [enrichAux_append env m xs ys (lowerKey o r :: seen)]
        · simp only [hstar, if_false]
          exact enrichAux_append env m xs ys (lowerKey o r :: seen)

/-- The seen set after an appended list. -/
theorem seenAfter_append :
    ∀ (xs ys : List Candidate) (seen : List String),
      seenAfter (xs ++ ys) seen = seenAfter ys (seenAfter xs seen)
  | [], ys, seen => rfl
  | c :: xs, ys, seen => by
    simp only [List.cons_append, seenAfter]
    match extract_github_repo c.url with
    | none => exact seenAfter_append xs ys seen
    | some (o, r) =>
      by_cases hmem : lowerKey o r ∈ seen
      · simp only [hmem, if_true]
        exact seenAfter_append xs ys seen
      · simp only [hmem, if_false]
        exact seenAfter_append xs ys (lowerKey o r :: seen)

/-- The seen set only grows. -/
theorem seenAfter_mem_mono {k : String} :
    ∀ (xs : List Candidate) (seen : List String), k ∈ seen → k ∈ seenAfter xs seen
  | [], _, h => h
  | c :: xs, seen, h => by
    simp only [seenAfter]
    match extract_github_repo c.url with
    | none => exact seenAfter_mem_mono xs seen h
    | some (o, r) =>
      by_cases hmem : lowerKey o r ∈ seen
      · simp only [hmem, if_true]
        exact seenAfter_mem_mono xs seen h
      · simp only [hmem, if_false]
        exact seenAfter_mem_mono xs _ (List.mem_cons_of_mem _ h)

/-- A resolvable candidate's key is recorded in the seen set. -/
theorem seenAfter_mem_of_head {c : Candidate} {o r : String}
    (hres : extract_github_repo c.url = some (o, r)) (rest : List Candidate)
    (seen : List String) : lowerKey o r ∈ seenAfter (c :: rest) seen := by
  simp only [seenAfter, hres]
  by_cases hmem : lowerKey o r ∈ seen
  · simp only [hmem, if_true]
    exact seenAfter_mem_mono rest seen hmem
  · simp only [hmem, if_false]
    exact seenAfter_mem_mono rest _ (List.mem_cons_self _ _)

/-- A key is absent from the seen set when it was absent initially and
no candidate in the list resolves to it. -/
theorem seenAfter_not_mem {k : String} :
    ∀ (xs : List Candidate) (seen : List String), k ∉ seen →
      (∀ c ∈ xs, ∀ o r, extract_github_repo c.url = some (o, r) →
        lowerKey o r ≠ k) →
      k ∉ seenAfter xs seen
  | [], _, h, _ => h
  | c :: xs, seen, h, hall => by
    simp only [seenAfter]
    have hrest : ∀ c' ∈ xs, ∀ o r, extract_github_repo c'.url = some (o, r) →
        lowerKey o r ≠ k :=
      fun c' hc' => hall c' (List.mem_cons_of_mem _ hc')
    match hres : extract_github_repo c.url with
    | none => exact seenAfter_not_mem xs seen h hrest
    | some (o, r) =>
      by_cases hmem : lowerKey o r ∈ seen
      · simp only [hmem, if_true]
        exact seenAfter_not_mem xs seen h hrest
      · simp only [hmem, if_false]
        refine seenAfter_not_mem xs _ ?_ hrest
        intro hk
        rcases List.mem_cons.mp hk with heq | hmem2
        · exact hall c (List.mem_cons_self _ _) o r hres heq.symm
        · exact h hmem2

/-- A candidate whose key is already seen contributes nothing and
changes nothing. -/
theorem enrichAux_skip (env : GhEnv) (m : Int) {c : Candidate} {o r : String}
    (hres : extract_github_repo c.url = some (o, r))
    (rest : List Candidate) {seen : List String} (hmem : lowerKey o r ∈ seen) :
    enrichAux env m (c :: rest) seen = enrichAux env m rest seen ∧
    seenAfter (c :: rest) seen = seenAfter rest seen := by
  constructor
  · simp only [enrichAux, hres, hmem, if_true]
  · simp only [seenAfter, hres, hmem, if_true]

/-- Every tool produced by enrichment meets the star threshold. -/
theorem enrichAux_stars_ge (env : GhEnv) (m : Int) :
    ∀ (l : List Candidate) (seen : List String) (t : Tool),
      t ∈ enrichAux env m l seen → m ≤ t.stars
  | c :: rest, seen, t, ht => by
    match hres : extract_github_repo c.url with
    | none =>
      simp only [enrichAux, hres] at ht
      exact enrichAux_stars_ge env m rest seen t ht
    | some (o, r) =>
      simp only [enrichAux, hres] at ht
      by_cases hmem : lowerKey o r ∈ seen
      · rw [if_pos hmem] at ht
        exact enrichAux_stars_ge env m rest seen t ht
      · rw [if_neg hmem] at ht
        by_cases hstar : m ≤ get_repo_stars env o r
        · rw [if_pos hstar] at ht
          rcases List.mem_cons.mp ht with heq | htail
          · subst heq
            exact hstar
          · exact enrichAux_stars_ge env m rest _ t htail
        · rw [if_neg hstar] at ht
          exact enrichAux_stars_ge env m rest _ t ht

/-- Every tool produced by enrichment has a canonical URL whose key was
unseen at entry, and the produced tools have pairwise distinct
lowercased URLs. -/
theorem enrichAux_url_keys (env : GhEnv) (m : Int) :
    ∀ (l : List Candidate) (seen : List String),
      (∀ t ∈ enrichAux env m l seen,
        ∃ o r, t.url = canonicalUrl o r ∧ lowerKey o r ∉ seen) ∧
      (enrichAux env m l seen).Pairwise
        (fun t t' => pyLower t.url ≠ pyLower t'.url)
  | [], seen => ⟨fun t ht => absurd ht (List.not_mem_nil t), List.Pairwise.nil⟩
  | c :: rest, seen => by
    match hres : extract_github_repo c.url with
    | none =>
      simp only [enrichAux, hres]
      exact enrichAux_url_keys env m rest seen
    | some (o, r) =>
      simp only [enrichAux, hres]
      by_cases hmem : lowerKey o r ∈ seen
      · rw [if_pos hmem]
        exact enrichAux_url_keys env m rest seen
      · rw [if_neg hmem]
        have ih := enrichAux_url_keys env m rest (lowerKey o r :: seen)
        have hweak : ∀ t ∈ enrichAux env m rest (lowerKey o r :: seen),
            ∃ o2 r2, t.url = canonicalUrl o2 r2 ∧ lowerKey o2 r2 ∉ seen := by
          intro t ht
          obtain ⟨o2, r2, hurl, hnot⟩ := ih.1 t ht
          exact ⟨o2, r2, hurl, fun hs => hnot (List.mem_cons_of_mem _ hs)⟩
        by_cases hstar : m ≤ get_repo_stars env o r
        · rw [if_pos hstar]
          refine ⟨?_, ?_⟩
          · intro t ht
            rcases List.mem_cons.mp ht with heq | htail
            · subst heq
              exact ⟨o, r, rfl, hmem⟩
            · exact hweak t htail
          · refine List.Pairwise.cons ?_ ih.2
            intro t' ht'
            obtain ⟨o2, r2, hurl, hnot⟩ := ih.1 t' ht'
            have hne : lowerKey o r ≠ lowerKey o2 r2 := by
              intro heq
              exact hnot (heq ▸ List.mem_cons_self _ _)
            show pyLower (toolOf c o r (get_repo_stars env o r)).url ≠ pyLower t'.url
            rw [show (toolOf c o r (get_repo_stars env o r)).url =
              canonicalUrl o r from rfl, hurl]
            exact canonicalUrl_lower_ne hne
        · rw [if_neg hstar]
          exact ⟨hweak, ih.2⟩

/-- A resolvable candidate whose key is unseen after the prefix and
whose star count meets the threshold contributes its tool. -/
theorem enrichAux_mem_head (env : GhEnv) (m : Int) {c : Candidate} {o r : String}
    (hres : extract_github_repo c.url = some (o, r)) :
    ∀ (l1 : List Candidate) (l2 : List Candidate) (seen : List String),
      lowerKey o r ∉ seenAfter l1 seen →
      m ≤ get_repo_stars env o r →
      toolOf c o r (get_repo_stars env o r) ∈ enrichAux env m (l1 ++ c :: l2) seen
  | [], l2, seen, hnot, hstar => by
    simp only [List.nil_append, enrichAux, hres, seenAfter] at hnot ⊢
    rw [if_neg hnot, if_pos hstar]
    exact List.mem_cons_self _ _
  | x :: l1, l2, seen, hnot, hstar => by
    match hresx : extract_github_repo x.url with
    | none =>
      simp only [List.cons_append, enrichAux, hresx]
      simp only [seenAfter, hresx] at hnot
      exact enrichAux_mem_head env m hres l1 l2 seen hnot hstar
    | some (o2, r2) =>
      simp only [List.cons_append, enrichAux, hresx]
      simp only [seenAfter, hresx] at hnot
      by_cases hmem : lowerKey o2 r2 ∈ seen
      · rw [if_pos hmem]
        rw [if_pos hmem] at hnot
        exact enrichAux_mem_head env m hres l1 l2 seen hnot hstar
      · rw [if_neg hmem]
        rw [if_neg hmem] at hnot
        by_cases hstar2 : m ≤ get_repo_stars env o2 r2
        · rw [if_pos hstar2]
          exact List.mem_cons_of_mem _
            (enrichAux_mem_head env m hres l1 l2 _ hnot hstar)
        · rw [if_neg hstar2]
          exact enrichAux_mem_head env m hres l1 l2 _ hnot hstar

/-! ## Claim theorems C2, C3 -/

/-- Claim C2: enrichment deduplicates by the case-insensitive
`owner/repo` key: a later candidate resolving to the same key as an
earlier one can be removed without changing the result (only the
first-encountered candidate can produce a tool), and the produced tools
have pairwise distinct case-insensitive URLs. -/
theorem C2_case_insensitive_dedup (env : GhEnv) (m : Int)
    (l1 l2 l3 : List Candidate) (c1 c2 : Candidate) (o1 r1 o2 r2 : String)
    (h1 : extract_github_repo c1.url = some (o1, r1))
    (h2 : extract_github_repo c2.url = some (o2, r2))
    (hkey : lowerKey o2 r2 = lowerKey o1 r1) :
    enrich_with_stars env (l1 ++ c1 :: l2 ++ c2 :: l3) m =
      enrich_with_stars env (l1 ++ c1 :: l2 ++ l3) m ∧
    (enrich_with_stars env (l1 ++ c1 :: l2 ++ c2 :: l3) m).Pairwise
      (fun t t' => pyLower t.url ≠ pyLower t'.url) := by
  constructor
  · show enrichAux env m ((l1 ++ c1 :: l2) ++ c2 :: l3) [] =
      enrichAux env m ((l1 ++ c1 :: l2) ++ l3) []
    rw [enrichAux_append env m (l1 ++ c1 :: l2) (c2 :: l3) [],
      enrichAux_append env m (l1 ++ c1 :: l2) l3 []]
    have hkeymem : lowerKey o2 r2 ∈ seenAfter (l1 ++ c1 :: l2) [] := by
      rw [hkey, seenAfter_append]
      exact seenAfter_mem_of_head h1 l2 (seenAfter l1 [])
    rw [(enrichAux_skip env m h2 l3 hkeymem).1]
  · exact (enrichAux_url_keys env m (l1 ++ c1 :: l2 ++ c2 :: l3) []).2

/-- Closed witness for C2: the same repository in different letter case
is deduplicated. -/
theorem C2_case_insensitive_dedup_witness :
    (enrich_with_stars envStars1000 ([] ++ candAbc :: [] ++ candAbcUpper :: []) 500 =
      enrich_with_stars envStars1000 ([] ++ candAbc :: [] ++ []) 500) ∧
    (enrich_with_stars envStars1000 ([] ++ candAbc :: [] ++ candAbcUpper :: []) 500).Pairwise
      (fun t t' => pyLower t.url ≠ pyLower t'.url) :=
  C2_case_insensitive_dedup envStars1000 500 [] [] [] candAbc candAbcUpper
    "abc" "def" "ABC" "DEF" (by decide) (by decide) (by decide)

/-- Claim C3: a resolvable candidate that is not a duplicate of an
earlier candidate produces a tool if and only if its looked-up star
count is at least the configured minimum. -/
theorem C3_star_threshold_iff (env : GhEnv) (m : Int)
    (l1 l2 : List Candidate) (c : Candidate) (o r : String)
    (hres : extract_github_repo c.url = some (o, r))
    (hfirst : ∀ c' ∈ l1, ∀ o' r', extract_github_repo c'.url = some (o', r') →
      lowerKey o' r' ≠ lowerKey o r) :
    toolOf c o r (get_repo_stars env o r) ∈
        enrich_with_stars env (l1 ++ c :: l2) m ↔
      m ≤ get_repo_stars env o r := by
  constructor
  · intro ht
    exact enrichAux_stars_ge env m (l1 ++ c :: l2) [] _ ht
  · intro hstar
    have hnot : lowerKey o r ∉ seenAfter l1 [] :=
      seenAfter_not_mem l1 [] (List.not_mem_nil _) hfirst
    exact enrichAux_mem_head env m hres l1 l2 [] hnot hstar

/-- Closed witness for C3 at a concrete candidate with 1000 stars and
threshold 500. -/
theorem C3_star_threshold_iff_witness :
    toolOf candAbc "abc" "def" (get_repo_stars envStars1000 "abc" "def") ∈
        enrich_with_stars envStars1000 ([] ++ candAbc :: []) 500 ↔
      (500 : Int) ≤ get_repo_stars envStars1000 "abc" "def" :=
  C3_star_threshold_iff envStars1000 500 [] [] candAbc "abc" "def" (by decide)
    (fun c' hc' => absurd hc' (List.not_mem_nil c'))

/-! ## Claim theorems C8, C10 -/

/-- Claim C8: every external-data failure is locally suppressed as an
absent result: a failing API call, a missing `download_url` field, or a
failing content fetch each make `fetch_awesome_list` return `none`
rather than propagate; and when all three source fetches fail, the
pipeline still completes and produces the output document with an empty
tools array (which the Python code then writes to disk). -/
theorem C8_failures_suppressed (env : GhEnv) :
    (∀ owner repo path,
      run_gh_api env (contentsEndpoint owner repo path) = none →
      fetch_awesome_list env owner repo path = none) ∧
    (∀ owner repo path entries,
      run_gh_api env (contentsEndpoint owner repo path) =
        some (GhData.dict entries) →
      lookupField entries "download_url" = none →
      fetch_awesome_list env owner repo path = none) ∧
    (∀ owner repo path entries u,
      run_gh_api env (contentsEndpoint owner repo path) =
        some (GhData.dict entries) →
      lookupField entries "download_url" = some (JsonVal.str u) →
      env.rawContent u = none →
      fetch_awesome_list env owner repo path = none) ∧
    (fetch_awesome_list env "punkpeye" "awesome-mcp-servers" = none →
      fetch_awesome_list env "agarrharr" "awesome-cli-apps" = none →
      fetch_awesome_list env "jaywcjlove" "awesome-mac" = none →
      main env = emptyOutput) := by
  refine ⟨?_, ?_, ?_, ?_⟩
  · intro owner repo path h
    simp only [fetch_awesome_list, h]
  · intro owner repo path entries h hlook
    simp only [fetch_awesome_list, h, hlook]
    split <;> rfl
  · intro owner repo path entries u h hlook hraw
    simp only [fetch_awesome_list, h, hlook, hraw]
    split <;> rfl
  · intro hmcp hcli hmac
    simp only [main, scrape_awesome_mcp_servers, scrape_awesome_cli_apps,
      scrape_awesome_mac, hmcp, hcli, hmac, List.nil_append,
      enrich_with_stars, enrichAux, rankTruncate, List.mergeSort_nil,
      List.take_nil, List.length_nil, emptyOutput]

/-- Closed witness for C8 in an environment where every call fails. -/
theorem C8_failures_suppressed_witness :
    fetch_awesome_list envAllFail "a" "b" "c" = none ∧
    main envAllFail = emptyOutput :=
  ⟨(C8_failures_suppressed envAllFail).1 "a" "b" "c" rfl,
   (C8_failures_suppressed envAllFail).2.2.2 rfl rfl rfl⟩

/-- Claim C10: when the star lookup fails (API error, non-dict
response, or missing `stargazers_count` field) it returns `0`, so under
any positive threshold the candidate contributes no tool — but its
dedup key is recorded before the lookup, so any later candidate with
the same case-insensitive key is skipped entirely. -/
theorem C10_failed_lookup_dedup (env : GhEnv) (m : Int) (c : Candidate)
    (o r : String) (rest : List Candidate) (seen : List String)
    (hres : extract_github_repo c.url = some (o, r))
    (hfail : run_gh_api env ("/repos/" ++ o ++ "/" ++ r) = none ∨
      (∃ b, run_gh_api env ("/repos/" ++ o ++ "/" ++ r) =
        some (GhData.nondict b)) ∨
      (∃ entries, run_gh_api env ("/repos/" ++ o ++ "/" ++ r) =
          some (GhData.dict entries) ∧
        lookupField entries "stargazers_count" = none))
    (hnot : lowerKey o r ∉ seen) (hpos : 1 ≤ m) :
    get_repo_stars env o r = 0 ∧
    enrichAux env m (c :: rest) seen =
      enrichAux env m rest (lowerKey o r :: seen) ∧
    (∀ (c' : Candidate) (rest' : List Candidate) (seen' : List String)
        (o' r' : String), lowerKey o r ∈ seen' →
      extract_github_repo c'.url = some (o', r') →
      lowerKey o' r' = lowerKey o r →
      enrichAux env m (c' :: rest') seen' = enrichAux env m rest' seen') := by
  have hzero : get_repo_stars env o r = 0 := by
    rcases hfail with h | ⟨b, h⟩ | ⟨entries, h, hlook⟩
    · simp only [get_repo_stars, h]
    · simp only [get_repo_stars, h]
    · simp only [get_repo_stars, h, hlook]
      split <;> rfl
  refine ⟨hzero, ?_, ?_⟩
  · have hlt : ¬ m ≤ get_repo_stars env o r := by
      rw [hzero]
      omega
    simp only [enrichAux, hres, if_neg hnot, if_neg hlt]
  · intro c' rest' seen' o' r' hseen hres' hkey'
    simp only [enrichAux, hres', hkey', if_pos hseen]

/-- Closed witness for C10: a candidate whose lookup fails is excluded
while its key is recorded. -/
theorem C10_failed_lookup_dedup_witness :
    get_repo_stars envAllFail "abc" "def" = 0 ∧
    enrichAux envAllFail 500 (candAbc :: []) [] =
      enrichAux envAllFail 500 [] (lowerKey "abc" "def" :: []) ∧
    (∀ (c' : Candidate) (rest' : List Candidate) (seen' : List String)
        (o' r' : String), lowerKey "abc" "def" ∈ seen' →
      extract_github_repo c'.url = some (o', r') →
      lowerKey o' r' = lowerKey "abc" "def" →
      enrichAux envAllFail 500 (c' :: rest') seen' =
        enrichAux envAllFail 500 rest' seen') :=
  C10_failed_lookup_dedup envAllFail 500 candAbc "abc" "def" [] []
    (by decide) (Or.inl rfl) (List.not_mem_nil _) (by decide)

end ScrapeTools
